import Mathlib

/-!
Verification of the rsync-backup catalog, retention and checksum-integrity
core (`rsyncbackup.py`).  Python functions are embedded shallowly: pure
fragments become Lean functions on `String`/`List Char`, the filesystem and
subprocess boundaries become explicit parameters (directory listings, rsync
output lines, exit codes) and return values (lists of planned operations,
`Except` for raised exceptions).
-/

namespace RsyncBackup

/-- Python string comparison `a <= b` (lexicographic by code point) on the
underlying character lists; used because `sorted(..., key=attrgetter('timestamp'))`
compares timestamps as plain strings. -/
def strLeB : List Char → List Char → Bool
  | [], _ => true
  | _ :: _, [] => false
  | x :: xs, y :: ys => if x = y then strLeB xs ys else decide (x < y)

/-- Timestamp string comparison, `a <= b` as Python compares `str`. -/
def tsLe (a b : String) : Bool := strLeB a.data b.data

/-- A character matched by the `[0-9-]` class of the snapshot-name regexes. -/
def isTsChar (c : Char) : Bool := c.isDigit || c = '-'

/-- Embeds `Backup._parse_name`'s regex `^(.+)_([0-9-]{17})$` on a character
list.  Faithful to Python `re` semantics: `.` does not match a newline (so the
label group is newline-free) and `$` also matches just before a single
trailing newline, which is dropped from the match.  Returns
`(label, timestamp)` groups on success. -/
def parseNameList (cs0 : List Char) : Option (List Char × List Char) :=
  let cs := if cs0.getLast? = some '\n' then cs0.dropLast else cs0
  if cs.length < 19 then none
  else
    match cs.drop (cs.length - 18) with
    | '_' :: ts =>
      if ts.all isTsChar && (cs.take (cs.length - 18)).all (fun c => c ≠ '\n') then
        some (cs.take (cs.length - 18), ts)
      else none
    | _ => none

/-- Embeds `Backup._parse_name`: returns `(timestamp, interval)` in the
source's order, or `none` where Python would hit `AttributeError` on a
non-matching name. -/
def parse_name (name : String) : Option (String × String) :=
  match parseNameList name.data with
  | some (pre, ts) => some (String.mk ts, String.mk pre)
  | none => none

/-- A snapshot as constructed by `Backup.__init__`: the directory name plus
the `(timestamp, interval)` pair parsed from it. -/
structure Snapshot where
  name : String
  interval : String
  timestamp : String
deriving DecidableEq

/-- Embeds `Backup.__init__` for a directory name: parse the name into
timestamp and interval. -/
def mkBackup (name : String) : Option Snapshot :=
  match parse_name name with
  | some (ts, interval) => some ⟨name, interval, ts⟩
  | none => none

theorem parseNameList_spec (cs0 pre ts : List Char)
    (h : parseNameList cs0 = some (pre, ts))
    (hnl : cs0.getLast? ≠ some '\n') :
    pre ++ '_' :: ts = cs0 ∧ ts.length = 17 := by
  simp only [parseNameList] at h
  rw [if_neg hnl] at h
  split at h
  · exact absurd h (by simp)
  · rename_i hlen
    split at h
    · rename_i heq
      split at h
      · rw [Option.some.injEq, Prod.mk.injEq] at h
        obtain ⟨hpre, hts⟩ := h
        subst hpre
        subst hts
        constructor
        · rw [← heq]
          exact List.take_append_drop _ _
        · have hdlen : (List.drop (cs0.length - 18) cs0).length = 18 := by
            rw [List.length_drop]
            omega
          rw [heq] at hdlen
          simp only [List.length_cons] at hdlen
          omega
      · exact absurd h (by simp)
    · exact absurd h (by simp)

theorem parseNameList_roundtrip (cs0 pre ts : List Char)
    (h : parseNameList cs0 = some (pre, ts))
    (hnl : cs0.getLast? ≠ some '\n') :
    pre ++ '_' :: ts = cs0 :=
  (parseNameList_spec cs0 pre ts h hnl).1

/-- C8: for every valid snapshot directory name `<label>_<17-char timestamp>`
(no trailing newline, which such names never have since they end in the
timestamp), `_parse_name` extracts `(timestamp, label)` such that
`label ++ "_" ++ timestamp` reproduces the original name, and the timestamp
has 17 characters. -/
theorem parse_name_roundtrip (name t l : String)
    (h : parse_name name = some (t, l))
    (hnl : name.data.getLast? ≠ some '\n') :
    l ++ "_" ++ t = name ∧ t.length = 17 := by
  unfold parse_name at h
  split at h
  · rename_i pre ts heq
    rw [Option.some.injEq, Prod.mk.injEq] at h
    obtain ⟨ht, hl⟩ := h
    obtain ⟨hspec, hlen⟩ := parseNameList_spec name.data pre ts heq hnl
    subst ht
    subst hl
    constructor
    · apply String.ext
      rw [String.data_append, String.data_append]
      show pre ++ ['_'] ++ ts = name.data
      rw [← hspec]
      simp
    · show ts.length = 17
      exact hlen
  · exact absurd h (by simp)

theorem parse_name_roundtrip_witness :
    parse_name "daily_2024-01-01-000000" = some ("2024-01-01-000000", "daily") ∧
    ("daily_2024-01-01-000000" : String).data.getLast? ≠ some '\n' ∧
    ("daily" ++ "_" ++ "2024-01-01-000000" : String) = "daily_2024-01-01-000000" ∧
    ("2024-01-01-000000" : String).length = 17 := by
  refine ⟨by decide, by decide, ?_⟩
  exact parse_name_roundtrip "daily_2024-01-01-000000" "2024-01-01-000000" "daily"
    (by decide) (by decide)

theorem strLeB_total (a b : List Char) : strLeB a b = true ∨ strLeB b a = true := by
  induction a generalizing b with
  | nil => left; rfl
  | cons x xs ih =>
    cases b with
    | nil => right; rfl
    | cons y ys =>
      by_cases hxy : x = y
      · subst hxy
        simpa [strLeB] using ih ys
      · rcases lt_trichotomy x y with h | h | h
        · left; simp [strLeB, hxy, h]
        · exact absurd h hxy
        · right
          have hyx : y ≠ x := fun hc => hxy hc.symm
          simp [strLeB, hyx, h]

theorem strLeB_trans (a b c : List Char) (hab : strLeB a b = true)
    (hbc : strLeB b c = true) : strLeB a c = true := by
  induction a generalizing b c with
  | nil => rfl
  | cons x xs ih =>
    cases b with
    | nil => simp [strLeB] at hab
    | cons y ys =>
      cases c with
      | nil => simp [strLeB] at hbc
      | cons z zs =>
        simp only [strLeB] at hab hbc ⊢
        by_cases hxy : x = y
        · subst hxy
          by_cases hyz : x = z
          · subst hyz
            simp only [if_pos rfl] at hab hbc ⊢
            exact ih ys zs hab hbc
          · rw [if_pos rfl] at hab
            rw [if_neg hyz] at hbc ⊢
            exact hbc
        · rw [if_neg hxy] at hab
          by_cases hyz : y = z
          · subst hyz
            rw [if_neg hxy]
            exact hab
          · rw [if_neg hyz] at hbc
            have hxz : x < z := lt_trans (of_decide_eq_true hab) (of_decide_eq_true hbc)
            have hne : x ≠ z := ne_of_lt hxz
            rw [if_neg hne]
            exact decide_eq_true hxz

theorem strLeB_refl (a : List Char) : strLeB a a = true := by
  induction a with
  | nil => rfl
  | cons c cs ih => simpa [strLeB] using ih

/-- The sort order used by `sorted(self._get_backups(), key=attrgetter('timestamp'),
reverse=True)`: descending by timestamp string. -/
def tsGe (a b : Snapshot) : Prop := tsLe b.timestamp a.timestamp = true

instance : DecidableRel tsGe := fun _ _ => inferInstanceAs (Decidable (_ = true))

instance : IsTotal Snapshot tsGe :=
  ⟨fun a b => (strLeB_total b.timestamp.data a.timestamp.data).elim Or.inl Or.inr⟩

instance : IsTrans Snapshot tsGe :=
  ⟨fun _ b _ hab hbc => strLeB_trans _ b.timestamp.data _ hbc hab⟩

/-- Embeds the Python stable descending-by-timestamp sort used throughout
`_remove_old_backups` and `_get_latest_backup`. -/
def sortByTimestampDesc (bs : List Snapshot) : List Snapshot :=
  List.insertionSort tsGe bs

theorem sortByTimestampDesc_perm (bs : List Snapshot) :
    (sortByTimestampDesc bs).Perm bs :=
  List.perm_insertionSort tsGe bs

theorem sortByTimestampDesc_sorted (bs : List Snapshot) :
    (sortByTimestampDesc bs).Pairwise tsGe :=
  List.sorted_insertionSort tsGe bs

/-- Embeds the `for` loop of `_get_latest_backup`: `cur` is the current value
of the Python variable `backup` (initially `None`); the loop rebinds it to
each element and returns early at the first non-`incomplete` one, and the
function returns the last bound value when the loop ends without an early
return. -/
def getLatestLoop (cur : Option Snapshot) : List Snapshot → Option Snapshot
  | [] => cur
  | b :: rest => if b.interval ≠ "incomplete" then some b else getLatestLoop (some b) rest

/-- Embeds `_get_latest_backup`: iterate over the catalog in descending
timestamp order. -/
def getLatestBackup (bs : List Snapshot) : Option Snapshot :=
  getLatestLoop none (sortByTimestampDesc bs)

theorem getLatestLoop_all_incomplete (l : List Snapshot) (cur : Option Snapshot)
    (hne : l ≠ []) (hall : ∀ b ∈ l, b.interval = "incomplete") :
    ∃ b ∈ l, getLatestLoop cur l = some b ∧ b.interval = "incomplete" := by
  induction l generalizing cur with
  | nil => exact absurd rfl hne
  | cons a rest ih =>
    have ha : a.interval = "incomplete" := hall a (List.mem_cons_self a rest)
    simp only [getLatestLoop, ha, ne_eq, not_true_eq_false, if_false]
    cases rest with
    | nil => exact ⟨a, List.mem_cons_self a [], rfl, ha⟩
    | cons a2 rest2 =>
      obtain ⟨b, hb, heq, hbi⟩ := ih (some a) (by simp)
        (fun b hb => hall b (List.mem_cons_of_mem a hb))
      exact ⟨b, List.mem_cons_of_mem a hb, heq, hbi⟩

theorem getLatestLoop_first_complete (l : List Snapshot) (cur : Option Snapshot)
    (hp : l.Pairwise tsGe) (x : Snapshot) (hx : x ∈ l)
    (hxi : x.interval ≠ "incomplete") :
    ∃ b, getLatestLoop cur l = some b ∧ b ∈ l ∧ b.interval ≠ "incomplete" ∧
      ∀ y ∈ l, y.interval ≠ "incomplete" → tsLe y.timestamp b.timestamp = true := by
  induction l generalizing cur with
  | nil => exact absurd hx (List.not_mem_nil x)
  | cons a rest ih =>
    rw [List.pairwise_cons] at hp
    by_cases hai : a.interval = "incomplete"
    · have hxr : x ∈ rest := by
        rcases List.mem_cons.mp hx with h | h
        · exact absurd (h ▸ hai) hxi
        · exact h
      obtain ⟨b, heq, hbmem, hbi, hmax⟩ := ih (some a) hp.2 hxr
      refine ⟨b, ?_, List.mem_cons_of_mem a hbmem, hbi, ?_⟩
      · simpa [getLatestLoop, hai] using heq
      · intro y hy hyi
        rcases List.mem_cons.mp hy with h | h
        · exact absurd (h ▸ hai) hyi
        · exact hmax y h hyi
    · refine ⟨a, by simp [getLatestLoop, hai], List.mem_cons_self a rest, hai, ?_⟩
      intro y hy _
      rcases List.mem_cons.mp hy with h | h
      · subst h
        simp only [tsLe]
        exact strLeB_refl _
      · exact hp.1 y h

/-- C3 counterexample: a catalog whose only snapshot is labeled `incomplete`
contains no snapshot with another label, yet `_get_latest_backup` returns that
`incomplete` snapshot rather than `None` (the Python loop variable keeps its
last binding after the loop ends). -/
theorem getLatestBackup_counterexample :
    (∀ b ∈ [Snapshot.mk "incomplete_2024-01-02-000000" "incomplete" "2024-01-02-000000"],
        b.interval = "incomplete") ∧
    getLatestBackup [Snapshot.mk "incomplete_2024-01-02-000000" "incomplete" "2024-01-02-000000"]
      = some (Snapshot.mk "incomplete_2024-01-02-000000" "incomplete" "2024-01-02-000000") := by
  constructor
  · intro b hb
    simp only [List.mem_singleton] at hb
    subst hb
    rfl
  · rfl

/-- C3 (amended): `_get_latest_backup` returns the most recently created
snapshot whose label is not `incomplete` (descending timestamp string order)
when one exists; when the catalog is nonempty but every snapshot is labeled
`incomplete` it returns one of those `incomplete` snapshots (not none); it
returns none only on an empty catalog. -/
theorem getLatestBackup_spec (bs : List Snapshot) :
    ((∃ x ∈ bs, x.interval ≠ "incomplete") →
      ∃ b, getLatestBackup bs = some b ∧ b ∈ bs ∧ b.interval ≠ "incomplete" ∧
        ∀ y ∈ bs, y.interval ≠ "incomplete" → tsLe y.timestamp b.timestamp = true) ∧
    (bs ≠ [] → (∀ b ∈ bs, b.interval = "incomplete") →
      ∃ b ∈ bs, getLatestBackup bs = some b ∧ b.interval = "incomplete") ∧
    (bs = [] → getLatestBackup bs = none) := by
  have hperm := sortByTimestampDesc_perm bs
  refine ⟨?_, ?_, ?_⟩
  · rintro ⟨x, hx, hxi⟩
    obtain ⟨b, heq, hbmem, hbi, hmax⟩ :=
      getLatestLoop_first_complete (sortByTimestampDesc bs) none
        (sortByTimestampDesc_sorted bs) x (hperm.mem_iff.mpr hx) hxi
    exact ⟨b, heq, hperm.mem_iff.mp hbmem, hbi,
      fun y hy hyi => hmax y (hperm.mem_iff.mpr hy) hyi⟩
  · intro hne hall
    have hsne : sortByTimestampDesc bs ≠ [] := by
      intro hc
      have hbn : bs.Perm [] := by
        rw [← hc]
        exact hperm.symm
      exact hne hbn.eq_nil
    obtain ⟨b, hbmem, heq, hbi⟩ := getLatestLoop_all_incomplete (sortByTimestampDesc bs) none
      hsne (fun b hb => hall b (hperm.mem_iff.mp hb))
    exact ⟨b, hperm.mem_iff.mp hbmem, heq, hbi⟩
  · intro h
    subst h
    rfl

theorem getLatestBackup_spec_witness :
    (∃ x ∈ [Snapshot.mk "daily_2024-01-01-000000" "daily" "2024-01-01-000000",
            Snapshot.mk "monthly_2024-01-01-000000" "monthly" "2024-01-01-000000",
            Snapshot.mk "incomplete_2024-01-02-000000" "incomplete" "2024-01-02-000000"],
        x.interval ≠ "incomplete") ∧
    (∃ b, getLatestBackup
        [Snapshot.mk "daily_2024-01-01-000000" "daily" "2024-01-01-000000",
         Snapshot.mk "monthly_2024-01-01-000000" "monthly" "2024-01-01-000000",
         Snapshot.mk "incomplete_2024-01-02-000000" "incomplete" "2024-01-02-000000"] = some b ∧
      b ∈ [Snapshot.mk "daily_2024-01-01-000000" "daily" "2024-01-01-000000",
           Snapshot.mk "monthly_2024-01-01-000000" "monthly" "2024-01-01-000000",
           Snapshot.mk "incomplete_2024-01-02-000000" "incomplete" "2024-01-02-000000"] ∧
      b.interval ≠ "incomplete" ∧
      ∀ y ∈ [Snapshot.mk "daily_2024-01-01-000000" "daily" "2024-01-01-000000",
             Snapshot.mk "monthly_2024-01-01-000000" "monthly" "2024-01-01-000000",
             Snapshot.mk "incomplete_2024-01-02-000000" "incomplete" "2024-01-02-000000"],
        y.interval ≠ "incomplete" → tsLe y.timestamp b.timestamp = true) :=
  ⟨by decide, (getLatestBackup_spec _).1 (by decide)⟩

/-- A `*` wildcard step: try the rest of the pattern (`next`) against every
suffix of the candidate. -/
def globStar (next : List Char → Bool) : List Char → Bool
  | [] => next []
  | c :: cs => next (c :: cs) || globStar next cs

/-- Embeds `fnmatch.fnmatch` for the patterns this program builds (literal
characters and `*` wildcards; no `?` or character classes appear in any
pattern).  First argument is the pattern, second the candidate string. -/
def globMatch : List Char → List Char → Bool
  | [], cs => cs.isEmpty
  | '*' :: ps, cs => globStar (globMatch ps) cs
  | p :: ps, cs =>
    match cs with
    | [] => false
    | c :: cs2 => p == c && globMatch ps cs2

/-- One entry of the `self.intervals` dict built in `RsyncBackup.__init__`.
The source's `custom` entry has no `retention` key; its `retention` field here
is a placeholder that no embedded code path reads (the `custom` branches below
never consult it, matching the dict access pattern of the source). -/
structure IntervalSpec where
  name : String
  retention : Int
  pattern : String
deriving DecidableEq

/-- The `self.intervals` dict of `RsyncBackup.__init__` (lines 149-171), in
its insertion order: custom, daily, monthly, yearly, with the day/month/year
period strings supplied by the current datetime. -/
def stdIntervals (dailyR monthlyR yearlyR : Int) (day month year : String) :
    List IntervalSpec :=
  [⟨"custom", 0, day ++ "-*"⟩, ⟨"daily", dailyR, day ++ "-*"⟩,
   ⟨"monthly", monthlyR, month ++ "-*"⟩, ⟨"yearly", yearlyR, year ++ "-*"⟩]

/-- The Python slice `l[r:]` for a possibly negative integer `r`, as used by
`interval_backups[retention:]` in `_remove_old_backups`. -/
def pySliceFrom (l : List Snapshot) (r : Int) : List Snapshot :=
  if 0 ≤ r then l.drop r.toNat else l.drop (l.length - (-r).toNat)

/-- Embeds the `for interval in self.intervals` loop of `_remove_old_backups`
(lines 535-550), accumulating `to_delete`.  The `custom` branch is faithful to
the source's line 545, which appends the undefined name `b` (not the loop
variable `backup`): in Python 3 comprehension variables do not leak, so the
first non-matching `custom` snapshot raises `NameError`, modelled as
`Except.error`. -/
def removeLoop (sortedBackups : List Snapshot) :
    List IntervalSpec → List Snapshot → Except String (List Snapshot)
  | [], toDelete => Except.ok toDelete
  | iv :: rest, toDelete =>
    let intervalBackups := sortedBackups.filter (fun b => b.interval == iv.name)
    if iv.name = "custom" then
      if intervalBackups.all (fun b => globMatch (iv.name ++ "_" ++ iv.pattern).data b.name.data) then
        removeLoop sortedBackups rest toDelete
      else
        Except.error "NameError: name b is not defined"
    else
      removeLoop sortedBackups rest (toDelete ++ pySliceFrom intervalBackups iv.retention)

/-- Embeds `_remove_old_backups` (lines 525-557) up to the deletion pass: the
descending sort, the legacy `current` cleanup, and the per-interval marking
loop.  An `Except.error` means the Python method raised before any marked
snapshot was removed. -/
def removeOldBackups (intervals : List IntervalSpec) (backups : List Snapshot) :
    Except String (List Snapshot) :=
  let sortedB := sortByTimestampDesc backups
  removeLoop sortedB intervals (sortedB.filter (fun b => b.interval == "current"))

/-- Embeds the loop of `_create_interval_backups` (lines 496-523): for each
non-`custom` interval with retention at least 1 and no existing snapshot
matching the current period pattern, a `(label, directory-name)` pair is
created by `cp -al` (skipped in dry-run). -/
def createLoop (backups : List Snapshot) (timestamp : String) (test : Bool) :
    List IntervalSpec → List (String × String)
  | [] => []
  | iv :: rest =>
    if iv.name = "custom" then createLoop backups timestamp test rest
    else if iv.retention < 1 then createLoop backups timestamp test rest
    else
      let alreadyExisting := (backups.filter (fun b => b.interval == iv.name)).filter
        (fun b => globMatch ("*_" ++ iv.pattern).data b.name.data)
      if ¬ alreadyExisting.isEmpty then createLoop backups timestamp test rest
      else if test then createLoop backups timestamp test rest
      else (iv.name, iv.name ++ "_" ++ timestamp) :: createLoop backups timestamp test rest

/-- Embeds `_create_interval_backups`, returning the interval snapshots the
run creates. -/
def createIntervalBackups (intervals : List IntervalSpec) (backups : List Snapshot)
    (timestamp : String) (test : Bool) : List (String × String) :=
  createLoop backups timestamp test intervals

theorem createLoop_labels (backups : List Snapshot) (ts : String) (test : Bool)
    (ivs : List IntervalSpec) (p : String × String)
    (hp : p ∈ createLoop backups ts test ivs) :
    ∃ iv ∈ ivs, p.1 = iv.name ∧ ¬ iv.retention < 1 ∧ iv.name ≠ "custom" := by
  induction ivs with
  | nil => exact absurd hp (List.not_mem_nil p)
  | cons iv rest ih =>
    simp only [createLoop] at hp
    split at hp
    · obtain ⟨iv2, hmem, hrest⟩ := ih hp
      exact ⟨iv2, List.mem_cons_of_mem iv hmem, hrest⟩
    · rename_i hcust
      split at hp
      · obtain ⟨iv2, hmem, hrest⟩ := ih hp
        exact ⟨iv2, List.mem_cons_of_mem iv hmem, hrest⟩
      · rename_i hret
        split at hp
        · obtain ⟨iv2, hmem, hrest⟩ := ih hp
          exact ⟨iv2, List.mem_cons_of_mem iv hmem, hrest⟩
        · split at hp
          · obtain ⟨iv2, hmem, hrest⟩ := ih hp
            exact ⟨iv2, List.mem_cons_of_mem iv hmem, hrest⟩
          · rcases List.mem_cons.mp hp with h | h
            · exact ⟨iv, List.mem_cons_self iv rest, by rw [h], hret, hcust⟩
            · obtain ⟨iv2, hmem, hrest⟩ := ih h
              exact ⟨iv2, List.mem_cons_of_mem iv hmem, hrest⟩

theorem removeLoop_mono (sb : List Snapshot) (ivs : List IntervalSpec)
    (acc td : List Snapshot) (h : removeLoop sb ivs acc = Except.ok td) :
    ∀ x ∈ acc, x ∈ td := by
  induction ivs generalizing acc with
  | nil =>
    simp only [removeLoop, Except.ok.injEq] at h
    subst h
    exact fun x hx => hx
  | cons iv rest ih =>
    simp only [removeLoop] at h
    split at h
    · split at h
      · exact ih acc h
      · exact absurd h (by simp)
    · intro x hx
      exact ih _ h x (List.mem_append_left _ hx)

theorem removeLoop_ok_of_custom_match (sb : List Snapshot) (ivs : List IntervalSpec)
    (acc : List Snapshot)
    (hcust : ∀ iv ∈ ivs, iv.name = "custom" →
      (sb.filter (fun b => b.interval == iv.name)).all
        (fun b => globMatch (iv.name ++ "_" ++ iv.pattern).data b.name.data) = true) :
    ∃ td, removeLoop sb ivs acc = Except.ok td := by
  induction ivs generalizing acc with
  | nil => exact ⟨acc, rfl⟩
  | cons iv rest ih =>
    simp only [removeLoop]
    split
    · rename_i hc
      rw [hcust iv (List.mem_cons_self iv rest) hc]
      simp only [if_true]
      exact ih acc (fun j hj => hcust j (List.mem_cons_of_mem iv hj))
    · exact ih _ (fun j hj => hcust j (List.mem_cons_of_mem iv hj))

theorem pySliceFrom_zero (l : List Snapshot) : pySliceFrom l 0 = l := by
  simp [pySliceFrom]

theorem removeLoop_marks_all_of_retention_zero (sb : List Snapshot)
    (ivs : List IntervalSpec) (acc : List Snapshot) (L : String)
    (hL : L ≠ "custom")
    (hno : ∀ iv ∈ ivs, iv.name = L → iv.retention = 0)
    (hcust : ∀ iv ∈ ivs, iv.name = "custom" →
      (sb.filter (fun b => b.interval == iv.name)).all
        (fun b => globMatch (iv.name ++ "_" ++ iv.pattern).data b.name.data) = true)
    (hmem : ∃ iv ∈ ivs, iv.name = L) :
    ∃ td, removeLoop sb ivs acc = Except.ok td ∧
      ∀ b ∈ sb, b.interval = L → b ∈ td := by
  induction ivs generalizing acc with
  | nil =>
    obtain ⟨iv, hiv, _⟩ := hmem
    exact absurd hiv (List.not_mem_nil iv)
  | cons iv rest ih =>
    simp only [removeLoop]
    by_cases hc : iv.name = "custom"
    · rw [if_pos hc, hcust iv (List.mem_cons_self iv rest) hc]
      simp only [if_true]
      apply ih acc
      · exact fun j hj => hno j (List.mem_cons_of_mem iv hj)
      · exact fun j hj => hcust j (List.mem_cons_of_mem iv hj)
      · obtain ⟨j, hj, hjL⟩ := hmem
        rcases List.mem_cons.mp hj with h | h
        · rw [h] at hjL
          exact absurd (hjL.symm.trans hc) hL
        · exact ⟨j, h, hjL⟩
    · rw [if_neg hc]
      by_cases hivL : iv.name = L
      · have hret : iv.retention = 0 := hno iv (List.mem_cons_self iv rest) hivL
        rw [hret, pySliceFrom_zero]
        obtain ⟨td, htd⟩ := removeLoop_ok_of_custom_match sb rest
          (acc ++ sb.filter (fun b => b.interval == iv.name))
          (fun j hj => hcust j (List.mem_cons_of_mem iv hj))
        refine ⟨td, htd, ?_⟩
        intro b hb hbL
        apply removeLoop_mono sb rest _ td htd
        apply List.mem_append_right
        rw [List.mem_filter]
        exact ⟨hb, by rw [hbL, hivL]; exact beq_self_eq_true L⟩
      · obtain ⟨td, htd, hmark⟩ := ih (acc ++ pySliceFrom (sb.filter (fun b => b.interval == iv.name)) iv.retention)
          (fun j hj => hno j (List.mem_cons_of_mem iv hj))
          (fun j hj => hcust j (List.mem_cons_of_mem iv hj))
          (by
            obtain ⟨j, hj, hjL⟩ := hmem
            rcases List.mem_cons.mp hj with h | h
            · exact absurd (h ▸ hjL) (h ▸ hivL)
            · exact ⟨j, h, hjL⟩)
        exact ⟨td, htd, hmark⟩

/-- C2: with a `custom` snapshot from a previous day in the catalog (current
day 2024-01-02, so the custom pattern is `2024-01-02-*`), `_remove_old_backups`
raises `NameError` at `to_delete.append(b)` (line 545 uses `b` instead of the
loop variable `backup`) instead of marking the snapshot for deletion, so the
deletion pass never runs. -/
theorem removeOldBackups_custom_name_error :
    removeOldBackups (stdIntervals 7 12 5 "2024-01-02" "2024-01" "2024")
      [Snapshot.mk "custom_2024-01-01-000000" "custom" "2024-01-01-000000"]
      = Except.error "NameError: name b is not defined" := by
  rfl

/-- C1 counterexample: with `daily` retention 0 (< 1) and one existing daily
snapshot, `_remove_old_backups` marks that snapshot for deletion — the slice
`interval_backups[0:]` is the whole list, so the label is not skipped by the
pruning pass. -/
theorem retention_zero_prunes_counterexample :
    removeOldBackups (stdIntervals 0 12 5 "2024-01-06" "2024-01" "2024")
      [Snapshot.mk "daily_2024-01-05-120000" "daily" "2024-01-05-120000"]
      = Except.ok [Snapshot.mk "daily_2024-01-05-120000" "daily" "2024-01-05-120000"] := by
  rfl

/-- C1 (amended): a label with retention below 1 is skipped at creation time
(`_create_interval_backups` creates no snapshot of that label), but the
pruning pass does not skip it: `_remove_old_backups` slices the label's
snapshots at index `retention`, so a label with retention 0 has every one of
its existing snapshots marked for deletion (provided the run reaches that
point, i.e. no stray `custom` snapshot triggers the line-545 `NameError`). -/
theorem retention_lt_one_skips_creation_not_pruning
    (ivs : List IntervalSpec) (backups : List Snapshot) (ts : String) (test : Bool)
    (L : String) (hL : L ≠ "custom") :
    ((∀ iv ∈ ivs, iv.name = L → iv.retention < 1) →
      ∀ p ∈ createIntervalBackups ivs backups ts test, p.1 ≠ L) ∧
    ((∀ iv ∈ ivs, iv.name = L → iv.retention = 0) →
     (∃ iv ∈ ivs, iv.name = L) →
     (∀ iv ∈ ivs, iv.name = "custom" →
        ((sortByTimestampDesc backups).filter (fun b => b.interval == iv.name)).all
          (fun b => globMatch (iv.name ++ "_" ++ iv.pattern).data b.name.data) = true) →
      ∃ td, removeOldBackups ivs backups = Except.ok td ∧
        ∀ b ∈ backups, b.interval = L → b ∈ td) := by
  constructor
  · intro hret p hp heq
    obtain ⟨iv, hiv, hname, hnret, _⟩ := createLoop_labels backups ts test ivs p hp
    exact hnret (hret iv hiv (hname.symm.trans heq))
  · intro hno hmem hcust
    obtain ⟨td, htd, hmark⟩ := removeLoop_marks_all_of_retention_zero
      (sortByTimestampDesc backups) ivs
      ((sortByTimestampDesc backups).filter (fun b => b.interval == "current"))
      L hL hno hcust hmem
    refine ⟨td, ?_, ?_⟩
    · simpa [removeOldBackups] using htd
    · intro b hb hbL
      exact hmark b ((sortByTimestampDesc_perm backups).mem_iff.mpr hb) hbL

theorem retention_lt_one_skips_creation_not_pruning_witness :
    ("daily" : String) ≠ "custom" ∧
    (((∀ iv ∈ stdIntervals 0 12 5 "2024-01-06" "2024-01" "2024",
        iv.name = "daily" → iv.retention < 1) →
      ∀ p ∈ createIntervalBackups (stdIntervals 0 12 5 "2024-01-06" "2024-01" "2024")
          [Snapshot.mk "daily_2024-01-05-120000" "daily" "2024-01-05-120000"]
          "2024-01-06-010101" false, p.1 ≠ "daily") ∧
    ((∀ iv ∈ stdIntervals 0 12 5 "2024-01-06" "2024-01" "2024",
        iv.name = "daily" → iv.retention = 0) →
     (∃ iv ∈ stdIntervals 0 12 5 "2024-01-06" "2024-01" "2024", iv.name = "daily") →
     (∀ iv ∈ stdIntervals 0 12 5 "2024-01-06" "2024-01" "2024", iv.name = "custom" →
        ((sortByTimestampDesc
            [Snapshot.mk "daily_2024-01-05-120000" "daily" "2024-01-05-120000"]).filter
              (fun b => b.interval == iv.name)).all
          (fun b => globMatch (iv.name ++ "_" ++ iv.pattern).data b.name.data) = true) →
      ∃ td, removeOldBackups (stdIntervals 0 12 5 "2024-01-06" "2024-01" "2024")
          [Snapshot.mk "daily_2024-01-05-120000" "daily" "2024-01-05-120000"]
          = Except.ok td ∧
        ∀ b ∈ [Snapshot.mk "daily_2024-01-05-120000" "daily" "2024-01-05-120000"],
          b.interval = "daily" → b ∈ td)) :=
  ⟨by decide,
   retention_lt_one_skips_creation_not_pruning
     (stdIntervals 0 12 5 "2024-01-06" "2024-01" "2024")
     [Snapshot.mk "daily_2024-01-05-120000" "daily" "2024-01-05-120000"]
     "2024-01-06-010101" false "daily" (by decide)⟩

/-- Key lookup in a list of `(filename, checksum)` pairs, first match wins. -/
def lookupKey (f : String) : List (String × String) → Option String
  | [] => none
  | (g, c) :: rest => if g = f then some c else lookupKey f rest

/-- Embeds the middle loop of `_get_checksums` (lines 607-610): walk the
previous backup's checksum pairs; a pair whose filename is still in
`need_checksum` is appended to `checksums` and its filename discarded from
the set.  Returns the appended pairs and the remaining need set. -/
def inheritLoop : List (String × String) → List String → List (String × String) × List String
  | [], need => ([], need)
  | (f, c) :: rest, need =>
    if f ∈ need then
      let r := inheritLoop rest (need.filter (fun x => !(x == f)))
      ((f, c) :: r.1, r.2)
    else inheritLoop rest need

/-- Embeds `_get_checksums` (lines 582-625).  `presentFiles` is the set of
relative paths under the snapshot's content root (`backup.get_files()` with
the `backup/` prefix stripped), `rsyncChecksums` the transfer-reported pairs,
`priorChecksums` the previous backup's stored checksum pairs (`[]` when it
has no checksum file, making the reuse loop a no-op exactly as the source's
`if checksum_file:` guard does), and `hashFn` the `_get_file_md5` oracle. -/
def getChecksums (presentFiles : List String) (rsyncChecksums : List (String × String))
    (priorChecksums : List (String × String)) (hashFn : String → String) :
    List (String × String) :=
  let need1 := presentFiles.filter (fun f => !(rsyncChecksums.any (fun p => p.1 == f)))
  let inh := inheritLoop priorChecksums need1
  let checksums2 := rsyncChecksums ++ inh.1
  let need2 := inh.2.filter (fun f => !(checksums2.any (fun p => p.1 == f)))
  checksums2 ++ need2.map (fun f => (f, hashFn f))

/-- The checksum the three-tier reconciliation policy assigns to a present
file: transfer-supplied, else inherited from the prior record, else freshly
hashed. -/
def expectedChecksum (rsyncChecksums priorChecksums : List (String × String))
    (hashFn : String → String) (f : String) : String :=
  match lookupKey f rsyncChecksums with
  | some c => c
  | none =>
    match lookupKey f priorChecksums with
    | some c => c
    | none => hashFn f

theorem lookupKey_mem (f c : String) (l : List (String × String))
    (h : lookupKey f l = some c) : (f, c) ∈ l := by
  induction l with
  | nil => exact absurd h (by simp [lookupKey])
  | cons q rest ih =>
    obtain ⟨g, c2⟩ := q
    simp only [lookupKey] at h
    split at h
    · rename_i hg
      rw [Option.some.injEq] at h
      subst hg
      subst h
      exact List.mem_cons_self _ _
    · exact List.mem_cons_of_mem _ (ih h)

theorem lookupKey_eq_none_iff (f : String) (l : List (String × String)) :
    lookupKey f l = none ↔ f ∉ l.map Prod.fst := by
  induction l with
  | nil => simp [lookupKey]
  | cons q rest ih =>
    obtain ⟨g, c⟩ := q
    simp only [lookupKey, List.map_cons, List.mem_cons]
    split
    · rename_i hg
      subst hg
      simp
    · rename_i hg
      rw [ih]
      constructor
      · intro h hc
        rcases hc with hc | hc
        · exact hg hc.symm
        · exact h hc
      · intro h hc
        exact h (Or.inr hc)

theorem inheritLoop_sublist_snd (prior : List (String × String)) (need : List String) :
    (inheritLoop prior need).2.Sublist need := by
  induction prior generalizing need with
  | nil => exact List.Sublist.refl need
  | cons q rest ih =>
    obtain ⟨g, c⟩ := q
    simp only [inheritLoop]
    split
    · exact (ih _).trans (List.filter_sublist need)
    · exact ih need

theorem inheritLoop_mem_snd (prior : List (String × String)) (need : List String)
    (x : String) :
    x ∈ (inheritLoop prior need).2 ↔ (x ∈ need ∧ lookupKey x prior = none) := by
  induction prior generalizing need with
  | nil => simp [inheritLoop, lookupKey]
  | cons q rest ih =>
    obtain ⟨g, c⟩ := q
    simp only [inheritLoop, lookupKey]
    split
    · rename_i hg
      rw [ih]
      simp only [List.mem_filter, Bool.not_eq_eq_eq_not, Bool.not_true, beq_eq_false_iff_ne,
        ne_eq]
      constructor
      · rintro ⟨⟨hxn, hxg⟩, hlk⟩
        refine ⟨hxn, ?_⟩
        rw [if_neg (fun hc => hxg hc.symm)]
        exact hlk
      · rintro ⟨hxn, hlk⟩
        split at hlk
        · exact absurd hlk (by simp)
        · rename_i hgx
          exact ⟨⟨hxn, fun hc => hgx hc.symm⟩, hlk⟩
    · rename_i hg
      rw [ih]
      constructor
      · rintro ⟨hxn, hlk⟩
        refine ⟨hxn, ?_⟩
        rw [if_neg (fun hc : g = x => hg (hc ▸ hxn))]
        exact hlk
      · rintro ⟨hxn, hlk⟩
        split at hlk
        · exact absurd hlk (by simp)
        · exact ⟨hxn, hlk⟩

theorem inheritLoop_countP_fst (prior : List (String × String)) (need : List String)
    (f : String) :
    (inheritLoop prior need).1.countP (fun p => p.1 == f)
      = if f ∈ need ∧ (lookupKey f prior).isSome = true then 1 else 0 := by
  induction prior generalizing need with
  | nil => simp [inheritLoop, lookupKey]
  | cons q rest ih =>
    obtain ⟨g, c⟩ := q
    simp only [inheritLoop, lookupKey]
    split
    · rename_i hg
      show List.countP _ ((g, c) :: _) = _
      rw [List.countP_cons, ih]
      by_cases hfg : g = f
      · subst hfg
        have hnf : ¬ (g ∈ need.filter (fun x => !(x == g)) ∧ (lookupKey g rest).isSome = true) := by
          simp [List.mem_filter]
        have hyes : g ∈ need ∧ (if g = g then some c else lookupKey g rest).isSome = true :=
          ⟨hg, by simp⟩
        rw [if_neg hnf, if_pos hyes]
        simp
      · have hmf : (f ∈ need.filter (fun x => !(x == g))) = (f ∈ need) := by
          simp only [eq_iff_iff, List.mem_filter]
          constructor
          · exact fun h => h.1
          · intro h
            refine ⟨h, ?_⟩
            simp only [Bool.not_eq_eq_eq_not, Bool.not_true, beq_eq_false_iff_ne, ne_eq]
            exact fun hc => hfg hc.symm
        have hbf : ((g, c).1 == f) = false := by
          simp only [beq_eq_false_iff_ne, ne_eq]
          exact hfg
        simp only [hmf, hbf, if_neg hfg, if_false]
        simp
    · rename_i hg
      rw [ih]
      by_cases hfg : g = f
      · subst hfg
        have h1 : ¬ (g ∈ need ∧ (lookupKey g rest).isSome = true) := fun hc => hg hc.1
        have h2 : ¬ (g ∈ need ∧ (if g = g then some c else lookupKey g rest).isSome = true) :=
          fun hc => hg hc.1
        rw [if_neg h1, if_neg h2]
      · simp only [if_neg hfg]


theorem inheritLoop_mem_fst (prior : List (String × String)) (need : List String)
    (f c : String) (hf : f ∈ need) (hl : lookupKey f prior = some c) :
    (f, c) ∈ (inheritLoop prior need).1 := by
  induction prior generalizing need with
  | nil => exact absurd hl (by simp [lookupKey])
  | cons q rest ih =>
    obtain ⟨g, c2⟩ := q
    simp only [lookupKey] at hl
    simp only [inheritLoop]
    split at hl
    · rename_i hg
      subst hg
      rw [Option.some.injEq] at hl
      subst hl
      rw [if_pos hf]
      exact List.mem_cons_self _ _
    · rename_i hg
      by_cases hgn : g ∈ need
      · rw [if_pos hgn]
        apply List.mem_cons_of_mem
        apply ih _ _ hl
        rw [List.mem_filter]
        refine ⟨hf, ?_⟩
        simp only [Bool.not_eq_eq_eq_not, Bool.not_true, beq_eq_false_iff_ne, ne_eq]
        exact fun hc => hg hc.symm
      · rw [if_neg hgn]
        exact ih need hf hl

theorem inheritLoop_fst_keys (prior : List (String × String)) (need : List String) :
    ∀ q ∈ (inheritLoop prior need).1, (lookupKey q.1 prior).isSome = true := by
  induction prior generalizing need with
  | nil => simp [inheritLoop]
  | cons qq rest ih =>
    obtain ⟨g, c⟩ := qq
    intro q hq
    simp only [inheritLoop] at hq
    simp only [lookupKey]
    split at hq
    · rcases List.mem_cons.mp hq with h | h
      · subst h
        rw [if_pos rfl]
        rfl
      · by_cases hgq : g = q.1
        · rw [if_pos hgq]
          rfl
        · rw [if_neg hgq]
          exact ih _ q h
    · by_cases hgq : g = q.1
      · rw [if_pos hgq]
        rfl
      · rw [if_neg hgq]
        exact ih need q hq

theorem countP_key_of_nodup (l : List (String × String)) (f : String)
    (h : (l.map Prod.fst).Nodup) :
    l.countP (fun p => p.1 == f) = if f ∈ l.map Prod.fst then 1 else 0 := by
  have h1 : l.countP (fun p => p.1 == f) = (l.map Prod.fst).countP (fun x => x == f) := by
    rw [List.countP_map]
    rfl
  rw [h1, ← List.count_eq_countP]
  by_cases hf : f ∈ l.map Prod.fst
  · rw [if_pos hf]
    exact List.count_eq_one_of_mem h hf
  · rw [if_neg hf]
    exact List.count_eq_zero_of_not_mem hf

theorem expectedChecksum_rsync (rsync prior : List (String × String))
    (hashFn : String → String) (f c : String) (h : lookupKey f rsync = some c) :
    expectedChecksum rsync prior hashFn f = c := by
  unfold expectedChecksum
  rw [h]

theorem expectedChecksum_prior (rsync prior : List (String × String))
    (hashFn : String → String) (f c : String) (h1 : lookupKey f rsync = none)
    (h2 : lookupKey f prior = some c) :
    expectedChecksum rsync prior hashFn f = c := by
  unfold expectedChecksum
  rw [h1, h2]

theorem expectedChecksum_hash (rsync prior : List (String × String))
    (hashFn : String → String) (f : String) (h1 : lookupKey f rsync = none)
    (h2 : lookupKey f prior = none) :
    expectedChecksum rsync prior hashFn f = hashFn f := by
  unfold expectedChecksum
  rw [h1, h2]

/-- C4: `_get_checksums` yields exactly one checksum entry per file present
under the snapshot's content root and none for absent files, with the
three-tier precedence: transfer-reported files keep the transfer checksum,
remaining present files found in the prior record inherit that checksum, and
any file still uncovered is hashed directly.  Hypotheses: the present-file
set has no duplicates (it is a filesystem listing) and the transfer events
concern distinct, present files. -/
theorem getChecksums_spec (present : List String) (rsync prior : List (String × String))
    (hashFn : String → String) (f : String)
    (hpres : present.Nodup)
    (hrk : (rsync.map Prod.fst).Nodup)
    (hrs : ∀ p ∈ rsync, p.1 ∈ present) :
    (getChecksums present rsync prior hashFn).countP (fun p => p.1 == f)
        = (if f ∈ present then 1 else 0) ∧
    (f ∈ present →
      (f, expectedChecksum rsync prior hashFn f) ∈ getChecksums present rsync prior hashFn) := by
  have hany : ∀ (l : List (String × String)) (x : String),
      (l.any (fun p => p.1 == x) = true) ↔ x ∈ l.map Prod.fst := by
    intro l x
    simp [List.any_eq_true, List.mem_map, beq_iff_eq]
  have hnotany : ∀ (l : List (String × String)) (x : String),
      ((!(l.any (fun p => p.1 == x))) = true) ↔ x ∉ l.map Prod.fst := by
    intro l x
    constructor
    · intro h hc
      rw [(hany l x).mpr hc] at h
      simp at h
    · intro h
      cases hb : l.any (fun p => p.1 == x) with
      | true => exact absurd ((hany l x).mp hb) h
      | false => rfl
  simp only [getChecksums]
  set need1 := present.filter (fun g => !(rsync.any (fun p => p.1 == g))) with hneed1def
  set inh := inheritLoop prior need1 with hinhdef
  set checksums2 := rsync ++ inh.1 with hc2def
  set need2 := inh.2.filter (fun g => !(checksums2.any (fun p => p.1 == g))) with hneed2def
  have hmem_need1 : ∀ x, x ∈ need1 ↔ (x ∈ present ∧ x ∉ rsync.map Prod.fst) := by
    intro x
    rw [hneed1def]
    simp only [List.mem_filter]
    exact and_congr_right (fun _ => hnotany rsync x)
  have hnodup1 : need1.Nodup := by
    rw [hneed1def]
    exact hpres.filter _
  have hsub : inh.2.Sublist need1 := by
    rw [hinhdef]
    exact inheritLoop_sublist_snd prior need1
  have hnodup' : inh.2.Nodup := hsub.nodup hnodup1
  have hmem' : ∀ x, x ∈ inh.2 ↔ (x ∈ need1 ∧ lookupKey x prior = none) := by
    intro x
    rw [hinhdef]
    exact inheritLoop_mem_snd prior need1 x
  have hmem2 : ∀ x, x ∈ need2 ↔ x ∈ inh.2 := by
    intro x
    rw [hneed2def]
    simp only [List.mem_filter]
    constructor
    · exact fun h => h.1
    · intro h
      refine ⟨h, ?_⟩
      rw [hnotany checksums2 x, hc2def, List.map_append]
      intro hc
      rcases List.mem_append.mp hc with hc | hc
      · exact ((hmem_need1 x).mp ((hmem' x).mp h).1).2 hc
      · obtain ⟨q, hq, hqx⟩ := List.mem_map.mp hc
        have hk := inheritLoop_fst_keys prior need1 q (by rw [hinhdef] at hq; exact hq)
        rw [hqx, ((hmem' x).mp h).2] at hk
        simp at hk
  have hnodup2 : need2.Nodup := by
    rw [hneed2def]
    exact hnodup'.filter _
  constructor
  · rw [List.countP_append, hc2def, List.countP_append]
    have hcr : rsync.countP (fun p => p.1 == f) = if f ∈ rsync.map Prod.fst then 1 else 0 :=
      countP_key_of_nodup rsync f hrk
    have hci : inh.1.countP (fun p => p.1 == f)
        = if f ∈ need1 ∧ (lookupKey f prior).isSome = true then 1 else 0 := by
      rw [hinhdef]
      exact inheritLoop_countP_fst prior need1 f
    have hch : (need2.map (fun g => (g, hashFn g))).countP (fun p => p.1 == f)
        = if f ∈ need2 then 1 else 0 := by
      rw [List.countP_map]
      have hcomp : ((fun p : String × String => p.1 == f) ∘ fun g => (g, hashFn g))
          = fun g => g == f := rfl
      rw [hcomp, ← List.count_eq_countP]
      by_cases h2 : f ∈ need2
      · rw [if_pos h2]
        exact List.count_eq_one_of_mem hnodup2 h2
      · rw [if_neg h2]
        exact List.count_eq_zero_of_not_mem h2
    rw [hcr, hci, hch]
    by_cases hf : f ∈ present
    · rw [if_pos hf]
      by_cases hfr : f ∈ rsync.map Prod.fst
      · have hn1 : f ∉ need1 := fun hc => ((hmem_need1 f).mp hc).2 hfr
        rw [if_pos hfr, if_neg (fun hc => hn1 hc.1),
          if_neg (fun hc => hn1 ((hmem' f).mp ((hmem2 f).mp hc)).1)]
      · rw [if_neg hfr]
        have hn1 : f ∈ need1 := (hmem_need1 f).mpr ⟨hf, hfr⟩
        by_cases hfp : (lookupKey f prior).isSome = true
        · have hnn2 : f ∉ need2 := by
            intro hc
            have h2 := ((hmem' f).mp ((hmem2 f).mp hc)).2
            rw [h2] at hfp
            simp at hfp
          rw [if_pos ⟨hn1, hfp⟩, if_neg hnn2]
        · have hlkn : lookupKey f prior = none := by
            cases hlk : lookupKey f prior with
            | none => rfl
            | some c => rw [hlk] at hfp; simp at hfp
          have hin2 : f ∈ need2 := (hmem2 f).mpr ((hmem' f).mpr ⟨hn1, hlkn⟩)
          rw [if_neg (fun hc => hfp hc.2), if_pos hin2]
    · rw [if_neg hf]
      have hfr : f ∉ rsync.map Prod.fst := by
        intro hc
        obtain ⟨q, hq, hqx⟩ := List.mem_map.mp hc
        exact hf (hqx ▸ hrs q hq)
      have hn1 : f ∉ need1 := fun hc => hf ((hmem_need1 f).mp hc).1
      rw [if_neg hfr, if_neg (fun hc => hn1 hc.1),
        if_neg (fun hc => hn1 ((hmem' f).mp ((hmem2 f).mp hc)).1)]
  · intro hf
    cases hlr : lookupKey f rsync with
    | some c =>
      rw [expectedChecksum_rsync rsync prior hashFn f c hlr]
      apply List.mem_append_left
      rw [hc2def]
      exact List.mem_append_left _ (lookupKey_mem f c rsync hlr)
    | none =>
      have hfr : f ∉ rsync.map Prod.fst := (lookupKey_eq_none_iff f rsync).mp hlr
      have hn1 : f ∈ need1 := (hmem_need1 f).mpr ⟨hf, hfr⟩
      cases hlp : lookupKey f prior with
      | some c =>
        rw [expectedChecksum_prior rsync prior hashFn f c hlr hlp]
        apply List.mem_append_left
        rw [hc2def]
        apply List.mem_append_right
        rw [hinhdef]
        exact inheritLoop_mem_fst prior need1 f c hn1 hlp
      | none =>
        rw [expectedChecksum_hash rsync prior hashFn f hlr hlp]
        apply List.mem_append_right
        have h2 : f ∈ need2 := (hmem2 f).mpr ((hmem' f).mpr ⟨hn1, hlp⟩)
        exact List.mem_map.mpr ⟨f, h2, rfl⟩

theorem getChecksums_spec_witness :
    (["a.txt", "b.txt"] : List String).Nodup ∧
    (([("b.txt", "cbtransfer")] : List (String × String)).map Prod.fst).Nodup ∧
    (∀ p ∈ ([("b.txt", "cbtransfer")] : List (String × String)),
      p.1 ∈ (["a.txt", "b.txt"] : List String)) ∧
    ((getChecksums ["a.txt", "b.txt"] [("b.txt", "cbtransfer")] [("a.txt", "cainherit")]
        (fun _ => "hashed")).countP (fun p => p.1 == "a.txt")
        = (if "a.txt" ∈ (["a.txt", "b.txt"] : List String) then 1 else 0) ∧
      ("a.txt" ∈ (["a.txt", "b.txt"] : List String) →
        ("a.txt", expectedChecksum [("b.txt", "cbtransfer")] [("a.txt", "cainherit")]
            (fun _ => "hashed") "a.txt")
          ∈ getChecksums ["a.txt", "b.txt"] [("b.txt", "cbtransfer")]
              [("a.txt", "cainherit")] (fun _ => "hashed"))) :=
  ⟨by decide, by decide, by decide,
   getChecksums_spec ["a.txt", "b.txt"] [("b.txt", "cbtransfer")] [("a.txt", "cainherit")]
     (fun _ => "hashed") "a.txt" (by decide) (by decide) (by decide)⟩

/-- The observable outcome of the verification loop of `verify` (lines
347-365): the three counters and, for each mismatch, the
`(path, currentChecksum, storedChecksum)` triple emitted through
`logger.error('[FAILED] ...')` (the source's local `failed_files` list is
created but never appended to; the log records are the only per-path
output). -/
structure VerificationReport where
  checked : Nat
  verified : Nat
  failed : Nat
  failedPaths : List (String × String × String)
deriving DecidableEq

/-- Embeds the `for filename, stored_checksum in backup.checksums` loop of
`verify`: recompute each listed file's checksum with `_get_file_md5`
(`liveHash`) and compare by exact equality. -/
def verifyChecksums (liveHash : String → String) :
    List (String × String) → VerificationReport
  | [] => ⟨0, 0, 0, []⟩
  | (f, stored) :: rest =>
    let current := liveHash f
    let rep := verifyChecksums liveHash rest
    if current = stored then
      ⟨rep.checked + 1, rep.verified + 1, rep.failed, rep.failedPaths⟩
    else
      ⟨rep.checked + 1, rep.verified, rep.failed + 1, (f, current, stored) :: rep.failedPaths⟩

/-- Embeds the tail of `verify` (lines 375-383) together with
`_write_timestamp`'s dry-run guard (lines 274-282): the final status string,
and whether the `last_verification` marker file is written. -/
def verifyFinish (backupName : String) (rep : VerificationReport) (test : Bool) :
    String × Bool :=
  let status := if rep.failed ≠ 0 then "Backup verification failed!"
    else "Backup verification completed successfully!"
  (status, backupName == "_current_" && !test)

/-- C5: verification recomputes each listed file's checksum and compares by
exact equality; every mismatching path is recorded with both checksum values
(in list order), `checked` counts the listed entries, `failed` counts exactly
the mismatching ones (so any mismatch makes it nonzero), and `failed = 0`
exactly when every listed file's content matches. -/
theorem verifyChecksums_spec (liveHash : String → String)
    (entries : List (String × String)) :
    (verifyChecksums liveHash entries).checked = entries.length ∧
    (verifyChecksums liveHash entries).failed
        = entries.countP (fun p => !(liveHash p.1 == p.2)) ∧
    (verifyChecksums liveHash entries).verified
        = entries.countP (fun p => liveHash p.1 == p.2) ∧
    (verifyChecksums liveHash entries).failedPaths
        = entries.filterMap (fun p =>
            if liveHash p.1 = p.2 then none else some (p.1, liveHash p.1, p.2)) ∧
    ((verifyChecksums liveHash entries).failed = 0 ↔
      ∀ p ∈ entries, liveHash p.1 = p.2) := by
  induction entries with
  | nil => simp [verifyChecksums]
  | cons q rest ih =>
    obtain ⟨f, stored⟩ := q
    obtain ⟨ihc, ihf, ihv, ihp, ihz⟩ := ih
    by_cases h : liveHash f = stored
    · simp only [verifyChecksums, if_pos h, List.length_cons, List.countP_cons,
        List.filterMap_cons, List.mem_cons]
      refine ⟨by rw [ihc], ?_, ?_, ?_, ?_⟩
      · rw [ihf]
        have hb : (!(liveHash (f, stored).1 == (f, stored).2)) = false := by
          simp [h]
        rw [hb]
        simp
      · rw [ihv]
        have hb : (liveHash (f, stored).1 == (f, stored).2) = true := by
          simp [h]
        rw [hb]
        simp
      · rw [ihp]
      · rw [ihz]
        constructor
        · intro hall p hp
          rcases hp with hp | hp
          · rw [hp]
            exact h
          · exact hall p hp
        · intro hall p hp
          exact hall p (Or.inr hp)
    · simp only [verifyChecksums, if_neg h, List.length_cons, List.countP_cons,
        List.filterMap_cons, List.mem_cons]
      refine ⟨by rw [ihc], ?_, ?_, ?_, ?_⟩
      · rw [ihf]
        have hb : (!(liveHash (f, stored).1 == (f, stored).2)) = true := by
          simp [h]
        rw [hb]
        simp
      · rw [ihv]
        have hb : (liveHash (f, stored).1 == (f, stored).2) = false := by
          simp [h]
        rw [hb]
        simp
      · rw [ihp]
      · constructor
        · intro hz
          exact absurd hz (by simp)
        · intro hall
          exact absurd (hall (f, stored) (Or.inl rfl)) h

theorem verifyChecksums_spec_witness :
    (verifyChecksums (fun p => if p = "x.txt" then "aaa" else "bbb")
        [("x.txt", "aaa"), ("y.txt", "ccc")]).checked = 2 ∧
    (verifyChecksums (fun p => if p = "x.txt" then "aaa" else "bbb")
        [("x.txt", "aaa"), ("y.txt", "ccc")]).failed = 1 ∧
    (verifyChecksums (fun p => if p = "x.txt" then "aaa" else "bbb")
        [("x.txt", "aaa"), ("y.txt", "ccc")]).failedPaths
      = [("y.txt", "bbb", "ccc")] := by
  obtain ⟨hc, hf, _, hp, _⟩ := verifyChecksums_spec
    (fun p => if p = "x.txt" then "aaa" else "bbb") [("x.txt", "aaa"), ("y.txt", "ccc")]
  refine ⟨?_, ?_, ?_⟩
  · rw [hc]
    decide
  · rw [hf]
    decide
  · rw [hp]
    decide

/-- C6 counterexample: verifying the current snapshot (`backup_name`
defaulted to `_current_`) with a mismatching entry still writes the
`last_verification` marker even though the verification failed. -/
theorem verifyFinish_failed_updates_marker :
    (verifyChecksums (fun _ => "bbb") [("x.txt", "aaa")]).failed ≠ 0 ∧
    (verifyFinish "_current_" (verifyChecksums (fun _ => "bbb") [("x.txt", "aaa")]) false).2
      = true := by
  constructor
  · decide
  · decide

/-- C6 (amended): the `last_verification` marker is written exactly when the
verification ran on the current snapshot (`backup_name = "_current_"`) outside
dry-run, regardless of whether the verification succeeded or failed; a
targeted verification of an explicitly named snapshot never updates it. -/
theorem verifyFinish_marker_iff (backupName : String) (liveHash : String → String)
    (entries : List (String × String)) (test : Bool) :
    (verifyFinish backupName (verifyChecksums liveHash entries) test).2 = true ↔
      (backupName = "_current_" ∧ test = false) := by
  simp only [verifyFinish, Bool.and_eq_true, beq_iff_eq, Bool.not_eq_true']

/-- Python `str.split(' ', 2)`: split on single spaces, at most twice; the
third field keeps its remaining spaces. -/
def pySplitSpaceMax2 (s : String) : List String :=
  match s.splitOn " " with
  | t0 :: t1 :: rest =>
    if rest.isEmpty then [t0, t1] else [t0, t1, String.intercalate " " rest]
  | ts => ts

/-- Embeds the per-line processing of `_run_rsync` (lines 240-250): strip the
line; a line starting with `>` is split as `<itemized> <checksum> <path>` and
contributes a `(path, checksum)` pair. -/
def parseRsyncLine (line : String) : Option (String × String) :=
  let l := line.trim
  if l.startsWith ">" then
    match pySplitSpaceMax2 l with
    | _ :: checksum :: path :: _ => some (path, checksum)
    | _ => none
  else none

/-- The `(path, checksum)` pairs `_run_rsync` collects from the rsync output
stream. -/
def collectRsyncChecksums (outputLines : List String) : List (String × String) :=
  outputLines.filterMap parseRsyncLine

/-- Embeds `_run_rsync` (lines 234-257): consume the output stream, collect
checksums from `>`-lines, then raise `BackupException` on a non-zero exit
code, else return the collected pairs. -/
def runRsync (outputLines : List String) (exitCode : Int) :
    Except String (List (String × String)) :=
  let checksums := collectRsyncChecksums outputLines
  if exitCode ≠ 0 then
    Except.error ("Rsync returned non-zero exit code [ " ++ toString exitCode ++ " ]")
  else Except.ok checksums

/-- Observable outcome of one `backup()` run (lines 459-494) through the
rename step: the raised-or-returned result, whether checksum reconciliation
(`_get_checksums`) ran, and the name under which the snapshot directory is
left on storage. -/
structure BackupRunOutcome where
  result : Except String (List (String × String))
  reconciliationRan : Bool
  snapshotDirName : String

/-- Embeds the control flow of `backup()` around the transfer: the snapshot
is created as `incomplete_<timestamp>`; a `BackupException` from `_run_rsync`
propagates, skipping reconciliation and the `move` to the final name; on
success reconciliation runs and the snapshot moves to `finalDestName` (both
skipped in dry-run). -/
def backupRun (timestamp : String) (outputLines : List String) (exitCode : Int)
    (test : Bool) (finalDestName : String) : BackupRunOutcome :=
  let incompleteName := "incomplete_" ++ timestamp
  match runRsync outputLines exitCode with
  | Except.error e => ⟨Except.error e, false, incompleteName⟩
  | Except.ok cks =>
    if test then ⟨Except.ok cks, false, incompleteName⟩
    else ⟨Except.ok cks, true, finalDestName⟩

/-- C7: a transfer exiting non-zero makes the run raise `BackupException`
with that exit code, no checksum reconciliation is attempted, and the partial
snapshot directory keeps its `incomplete_<timestamp>` name for the next
resume; a zero exit code returns the `(path, checksum)` pairs collected from
the `>`-lines. -/
theorem backupRun_exit_code_spec (timestamp : String) (outputLines : List String)
    (exitCode : Int) (test : Bool) (finalDestName : String) :
    (exitCode ≠ 0 →
      (backupRun timestamp outputLines exitCode test finalDestName).result
          = Except.error ("Rsync returned non-zero exit code [ "
              ++ toString exitCode ++ " ]") ∧
      (backupRun timestamp outputLines exitCode test finalDestName).reconciliationRan
          = false ∧
      (backupRun timestamp outputLines exitCode test finalDestName).snapshotDirName
          = "incomplete_" ++ timestamp) ∧
    (exitCode = 0 →
      runRsync outputLines exitCode = Except.ok (collectRsyncChecksums outputLines)) := by
  constructor
  · intro h
    have hr : runRsync outputLines exitCode
        = Except.error ("Rsync returned non-zero exit code [ "
            ++ toString exitCode ++ " ]") := by
      simp only [runRsync, if_pos h]
    simp [backupRun, hr]
  · intro h
    have hnn : ¬ (exitCode ≠ 0) := fun hc => hc h
    simp only [runRsync, if_neg hnn]

theorem backupRun_exit_code_spec_witness :
    ((1 : Int) ≠ 0) ∧
    ((backupRun "2024-01-06-010101" [">f+++++++++ abc123 some/file.txt"] 1 false
        "daily_2024-01-06-010101").result
      = Except.error ("Rsync returned non-zero exit code [ "
          ++ toString (1 : Int) ++ " ]") ∧
    (backupRun "2024-01-06-010101" [">f+++++++++ abc123 some/file.txt"] 1 false
        "daily_2024-01-06-010101").reconciliationRan = false ∧
    (backupRun "2024-01-06-010101" [">f+++++++++ abc123 some/file.txt"] 1 false
        "daily_2024-01-06-010101").snapshotDirName
      = "incomplete_" ++ "2024-01-06-010101") :=
  ⟨by decide,
   (backupRun_exit_code_spec "2024-01-06-010101" [">f+++++++++ abc123 some/file.txt"]
      1 false "daily_2024-01-06-010101").1 (by decide)⟩

/-- A filesystem operation performed by `_configure_rsync`. -/
inductive FsOp where
  | move : String → String → FsOp
  | mkdir : String → FsOp
deriving DecidableEq

/-- Embeds the filesystem phase of `_configure_rsync` (lines 430-441): when an
incomplete snapshot exists, the run appends `--delete-excluded` and moves the
incomplete directory to the new snapshot path with no dry-run guard; otherwise
the fresh content-root directory is created only outside dry-run.  Returns the
appended rsync options and the filesystem operations performed. -/
def configureRsyncFs (test : Bool) (incompletePath : Option String)
    (backupPath backupContentDir : String) : List String × List FsOp :=
  match incompletePath with
  | some inc => (["--delete-excluded"], [FsOp.move inc backupPath])
  | none => ([], if !test then [FsOp.mkdir backupContentDir] else [])

/-- C10: in dry-run mode an existing incomplete snapshot is still physically
moved to the new target path (the on-disk catalog is mutated), while the only
filesystem step dry-run suppresses in this phase is the fresh target
directory creation (performed when not in dry-run). -/
theorem configureRsyncFs_dry_run_spec (inc backupPath backupContentDir : String) :
    (configureRsyncFs true (some inc) backupPath backupContentDir).2
        = [FsOp.move inc backupPath] ∧
    (configureRsyncFs true none backupPath backupContentDir).2 = [] ∧
    (configureRsyncFs false none backupPath backupContentDir).2
        = [FsOp.mkdir backupContentDir] ∧
    (configureRsyncFs false (some inc) backupPath backupContentDir).2
        = [FsOp.move inc backupPath] :=
  ⟨rfl, rfl, rfl, rfl⟩

/-- Embeds `Backup.checksum_file` (lines 85-98): prefer the compressed v2
file `checksums.gz`, fall back to the legacy v1 `checksums.md5`, else none.
The two booleans are the two `os.path.exists` answers. -/
def checksum_file (hasV2 hasV1 : Bool) : Option (String × Nat) :=
  if hasV2 then some ("checksums.gz", 2)
  else if hasV1 then some ("checksums.md5", 1)
  else none

/-- The file the checksums setter (lines 57-61) writes:
`self._checksum_file`, i.e. `checksums.gz`, the v2 encoding. -/
def checksumWriterTarget : String × Nat := ("checksums.gz", 2)

/-- The whitespace set of Python `bytes.split(None)` / `bytes.strip()`. -/
def isPyWs (c : Char) : Bool :=
  c = ' ' || c = '\t' || c = '\n' || c = '\r' || c = '\x0b' || c = '\x0c'

/-- Python `line.split(None, 1)`: skip leading whitespace, take the first
token, skip the separating whitespace run and return the remainder; `none`
when fewer than two fields result (there the source's unpacking
`checksum, filename = line.split(None, 1)` would raise `ValueError`). -/
def pyLineSplit1 (cs : List Char) : Option (List Char × List Char) :=
  let cs1 := cs.dropWhile isPyWs
  if cs1.isEmpty then none
  else
    let tok := cs1.takeWhile (fun c => !(isPyWs c))
    let rest := (cs1.dropWhile (fun c => !(isPyWs c))).dropWhile isPyWs
    if rest.isEmpty then none
    else some (tok, rest)

/-- Python `bytes.strip()`. -/
def pyStrip (cs : List Char) : List Char :=
  ((cs.dropWhile isPyWs).reverse.dropWhile isPyWs).reverse

/-- Embeds one line of the v1 (`checksums.md5`) reader (lines 45-55):
`checksum, filename = line.split(None, 1)`, then `filename.strip()`, then the
legacy `./` prefix strip; yields `(filename, checksum)`. -/
def readChecksumLineV1 (cs : List Char) : Option (List Char × List Char) :=
  match pyLineSplit1 cs with
  | none => none
  | some (checksum, fname0) =>
    let fname1 := pyStrip fname0
    let fname2 := if fname1.take 2 = ['.', '/'] then fname1.drop 2 else fname1
    some (fname2, checksum)

/-- Embeds one line of the v2 (`checksums.gz`) reader (lines 38-44): same
split and strip, without the `./` compatibility strip. -/
def readChecksumLineV2 (cs : List Char) : Option (List Char × List Char) :=
  match pyLineSplit1 cs with
  | none => none
  | some (checksum, fname0) => some (pyStrip fname0, checksum)

/-- One line as produced by the checksums setter (line 61):
`checksum + b'  ' + filename` (the trailing newline aside). -/
def writeChecksumLine (filename checksum : List Char) : List Char :=
  checksum ++ [' ', ' '] ++ filename

theorem takeWhile_append_all (q : Char → Bool) (l₁ l₂ : List Char)
    (h : ∀ x ∈ l₁, q x = true) :
    (l₁ ++ l₂).takeWhile q = l₁ ++ l₂.takeWhile q := by
  induction l₁ with
  | nil => rfl
  | cons a t ih =>
    rw [List.cons_append, List.takeWhile_cons, if_pos (h a (List.mem_cons_self a t)),
      ih (fun x hx => h x (List.mem_cons_of_mem a hx))]
    rfl

theorem dropWhile_append_all (q : Char → Bool) (l₁ l₂ : List Char)
    (h : ∀ x ∈ l₁, q x = true) :
    (l₁ ++ l₂).dropWhile q = l₂.dropWhile q := by
  induction l₁ with
  | nil => rfl
  | cons a t ih =>
    rw [List.cons_append, List.dropWhile_cons, if_pos (h a (List.mem_cons_self a t))]
    exact ih (fun x hx => h x (List.mem_cons_of_mem a hx))

theorem dropWhile_head_false (q : Char → Bool) (a : Char) (l : List Char)
    (h : q a = false) : (a :: l).dropWhile q = a :: l := by
  rw [List.dropWhile_cons, h]
  simp

theorem pyStrip_eq_self (p : List Char)
    (hhead : isPyWs (p.headD '.') = false)
    (hlast : isPyWs (p.getLastD '.') = false) :
    pyStrip p = p := by
  cases hp : p with
  | nil => rfl
  | cons a t =>
    rw [hp] at hhead
    have h1 : (a :: t).dropWhile isPyWs = a :: t := dropWhile_head_false _ _ _ hhead
    rcases List.eq_nil_or_concat (a :: t) with hc | ⟨l2, ch, hc⟩
    · exact absurd hc (by simp)
    · rw [List.concat_eq_append] at hc
      have hlch : isPyWs ch = false := by
        rw [hp, hc, List.getLastD_concat] at hlast
        exact hlast
      unfold pyStrip
      rw [h1, hc, List.reverse_concat, dropWhile_head_false _ _ _ hlch,
        ← List.reverse_concat, List.reverse_reverse]

theorem pyLineSplit1_spec (c rest0 : List Char)
    (hc_ne : c ≠ []) (hc_ws : ∀ x ∈ c, isPyWs x = false)
    (h0 : rest0.dropWhile isPyWs ≠ []) :
    pyLineSplit1 (c ++ ' ' :: ' ' :: rest0) = some (c, rest0.dropWhile isPyWs) := by
  obtain ⟨c0, ct, hc⟩ : ∃ c0 ct, c = c0 :: ct := by
    cases c with
    | nil => exact absurd rfl hc_ne
    | cons c0 ct => exact ⟨c0, ct, rfl⟩
  subst hc
  have hc0 : isPyWs c0 = false := hc_ws c0 (List.mem_cons_self c0 ct)
  have hstep1 : ((c0 :: ct) ++ ' ' :: ' ' :: rest0).dropWhile isPyWs
      = (c0 :: ct) ++ ' ' :: ' ' :: rest0 := by
    rw [List.cons_append]
    exact dropWhile_head_false _ _ _ hc0
  have hnws : ∀ x ∈ c0 :: ct, (fun ch => !(isPyWs ch)) x = true := by
    intro x hx
    show (!(isPyWs x)) = true
    rw [hc_ws x hx]
    rfl
  have htail : List.takeWhile (fun ch => !(isPyWs ch)) (' ' :: ' ' :: rest0) = [] := rfl
  have htok : ((c0 :: ct) ++ ' ' :: ' ' :: rest0).takeWhile (fun ch => !(isPyWs ch))
      = c0 :: ct := by
    rw [takeWhile_append_all _ _ _ hnws, htail, List.append_nil]
  have hdropTok : ((c0 :: ct) ++ ' ' :: ' ' :: rest0).dropWhile (fun ch => !(isPyWs ch))
      = ' ' :: ' ' :: rest0 := by
    rw [dropWhile_append_all _ _ _ hnws]
    rfl
  have hrest : (((c0 :: ct) ++ ' ' :: ' ' :: rest0).dropWhile
      (fun ch => !(isPyWs ch))).dropWhile isPyWs = rest0.dropWhile isPyWs := by
    rw [hdropTok]
    rfl
  have hne1 : ((c0 :: ct) ++ ' ' :: ' ' :: rest0).isEmpty = false := rfl
  have hne2 : (rest0.dropWhile isPyWs).isEmpty = false := by
    cases hr : rest0.dropWhile isPyWs with
    | nil => exact absurd hr h0
    | cons a t => rfl
  simp only [pyLineSplit1]
  rw [hstep1, hne1]
  simp only [Bool.false_eq_true, if_false, htok, hrest]
  rw [hne2]
  simp

/-- C9: the checksum reader prefers the current compressed v2 file and falls
back to the legacy v1 file only if v2 is absent (and finds nothing when both
are absent); a legacy v1 line `<checksum>  <path>` is read back as the
`(path, checksum)` pair with any leading `./` stripped from the path; and the
writer's target is the v2 file. -/
theorem checksum_format_spec (hasV1 : Bool) (c p : List Char)
    (hc_ne : c ≠ []) (hc_ws : ∀ x ∈ c, isPyWs x = false)
    (hp_ne : p ≠ [])
    (hp_head : isPyWs (p.headD '.') = false)
    (hp_last : isPyWs (p.getLastD '.') = false) :
    checksum_file true hasV1 = some checksumWriterTarget ∧
    checksum_file false true = some ("checksums.md5", 1) ∧
    checksum_file false false = none ∧
    readChecksumLineV1 (c ++ ' ' :: ' ' :: p)
        = some ((if p.take 2 = ['.', '/'] then p.drop 2 else p), c) := by
  refine ⟨rfl, rfl, rfl, ?_⟩
  obtain ⟨p0, pt, hp⟩ : ∃ p0 pt, p = p0 :: pt := by
    cases p with
    | nil => exact absurd rfl hp_ne
    | cons p0 pt => exact ⟨p0, pt, rfl⟩
  have hpd : p.dropWhile isPyWs = p := by
    rw [hp]
    rw [hp] at hp_head
    exact dropWhile_head_false _ _ _ hp_head
  have hsplit : pyLineSplit1 (c ++ ' ' :: ' ' :: p) = some (c, p) := by
    rw [pyLineSplit1_spec c p hc_ne hc_ws (by rw [hpd]; exact hp_ne), hpd]
  simp only [readChecksumLineV1, hsplit]
  rw [pyStrip_eq_self p hp_head hp_last]

theorem checksum_format_spec_witness :
    (("d41d8cd98f00b204e9800998ecf8427e" : String).data ≠ []) ∧
    (readChecksumLineV1 (("d41d8cd98f00b204e9800998ecf8427e" : String).data
        ++ ' ' :: ' ' :: ("./x/y.txt" : String).data)
      = some ((if ("./x/y.txt" : String).data.take 2 = ['.', '/']
          then ("./x/y.txt" : String).data.drop 2 else ("./x/y.txt" : String).data),
        ("d41d8cd98f00b204e9800998ecf8427e" : String).data)) :=
  ⟨by decide,
   (checksum_format_spec true ("d41d8cd98f00b204e9800998ecf8427e" : String).data
      ("./x/y.txt" : String).data (by decide) (by decide) (by decide) (by decide)
      (by decide)).2.2.2⟩

end RsyncBackup
